import Mathlib

/-!
Verification development for the roller-bets tracker: a browser-side
betting ledger whose core is a family of pure aggregation functions over
an in-memory list of wager records.  The definitions below are a shallow
embedding of that core: JavaScript numbers are modelled as rationals,
`x.toFixed(n)` as half-up rounding to `n` decimal places, optional values
as `Option`, and JS string comparison / lower-casing by executable
functions on the underlying character lists.  Numeric form inputs are
modelled by the rational value that `parseNum` produces from them.
-/

namespace RollerBets

inductive Sport
  | Football
  | Cricket
  | Tennis
  | Other
deriving DecidableEq

inductive BetStatus
  | Pending
  | Won
  | Lost
deriving DecidableEq

inductive FootballCategory
  | Goals
  | Corners
  | Result
  | DoubleChance
  | Other
deriving DecidableEq

/-- The wager record (`type Bet`).  `category` is `Option` because the field
is optional (`"Uncategorised"` is substituted on display); `returnOverride`
and `settledAt` are optional in the source. -/
structure Bet where
  id : String
  date : String
  description : String
  sport : Sport
  category : Option FootballCategory
  stake : ℚ
  oddsDecimal : ℚ
  status : BetStatus
  returnOverride : Option ℚ
  settledAt : Option String
  createdAt : String
  updatedAt : String

/-- JS `+x.toFixed(2)`: half-up rounding to 2 decimal places
(the ECMAScript spec picks the larger candidate on ties). -/
def round2 (q : ℚ) : ℚ := (⌊q * 100 + 1 / 2⌋ : ℚ) / 100

/-- JS `+x.toFixed(3)`: half-up rounding to 3 decimal places. -/
def round3 (q : ℚ) : ℚ := (⌊q * 1000 + 1 / 2⌋ : ℚ) / 1000

/-- `isSettled(s) { return s === "Won" || s === "Lost" }`. -/
def isSettled : BetStatus → Bool
  | .Won => true
  | .Lost => true
  | .Pending => false

/-- `defaultReturn`: the computed return ignoring any override. -/
def defaultReturn (b : Bet) : Option ℚ :=
  match b.status with
  | .Won => some (round2 (b.stake * b.oddsDecimal))
  | .Lost => some 0
  | .Pending => none

/-- `effectiveReturn`: `null` while pending, the rounded override when one
is present on a settled bet, otherwise the computed default return. -/
def effectiveReturn (b : Bet) : Option ℚ :=
  if isSettled b.status then
    match b.returnOverride with
    | some v => some (round2 v)
    | none => defaultReturn b
  else none

/-- `clamp01(v) { return Math.max(0, Math.min(1, v)) }`. -/
def clamp01 (v : ℚ) : ℚ := max 0 (min 1 v)

/-- C1: `effectiveReturn` is `none` for a pending record; on a settled
record it is the override rounded to 2 decimals whenever an override is
present, regardless of stake and odds; without an override it is
`round2 (stake * oddsDecimal)` for a won record and `0` for a lost one. -/
theorem effectiveReturn_cases (b : Bet) :
    (b.status = .Pending → effectiveReturn b = none) ∧
    (∀ v : ℚ, isSettled b.status = true → b.returnOverride = some v →
      effectiveReturn b = some (round2 v)) ∧
    (b.status = .Won → b.returnOverride = none →
      effectiveReturn b = some (round2 (b.stake * b.oddsDecimal))) ∧
    (b.status = .Lost → b.returnOverride = none →
      effectiveReturn b = some 0) := by
  refine ⟨fun hp => ?_, fun v hs ho => ?_, fun hw ho => ?_, fun hl ho => ?_⟩
  · simp [effectiveReturn, hp, isSettled]
  · simp [effectiveReturn, hs, ho]
  · have hs : isSettled b.status = true := by simp [hw, isSettled]
    simp [effectiveReturn, hs, ho, defaultReturn, hw, isSettled]
  · have hs : isSettled b.status = true := by simp [hl, isSettled]
    simp [effectiveReturn, hs, ho, defaultReturn, hl, isSettled]

/-- Concrete bets used to instantiate the theorems. -/
def betTemplate : Bet :=
  { id := "b0", date := "2024-01-05", description := "sample bet",
    sport := Sport.Tennis, category := none, stake := 5,
    oddsDecimal := 2, status := BetStatus.Pending, returnOverride := none,
    settledAt := none, createdAt := "T0", updatedAt := "T0" }

/-- Won record with an override, for the C1 witness. -/
def betWonOverride : Bet :=
  { betTemplate with status := BetStatus.Won, returnOverride := some (7/2) }

/-- Won record without an override, for the C1 witness. -/
def betWonPlain : Bet := { betTemplate with status := BetStatus.Won }

/-- Lost record without an override, for the C1 witness. -/
def betLostPlain : Bet := { betTemplate with status := BetStatus.Lost }

/-- Witness for C1: the four branches evaluated at concrete records. -/
theorem effectiveReturn_cases_witness :
    effectiveReturn betTemplate = none ∧
    effectiveReturn betWonOverride = some (round2 (7/2)) ∧
    effectiveReturn betWonPlain =
      some (round2 (betWonPlain.stake * betWonPlain.oddsDecimal)) ∧
    effectiveReturn betLostPlain = some 0 :=
  ⟨(effectiveReturn_cases betTemplate).1 rfl,
   (effectiveReturn_cases betWonOverride).2.1 (7/2) rfl rfl,
   (effectiveReturn_cases betWonPlain).2.2.1 rfl rfl,
   (effectiveReturn_cases betLostPlain).2.2.2 rfl rfl⟩

/-- Lexicographic strict order on character lists: the comparison JS
applies to `yyyy-mm-dd` date strings with `<`, `>` and `localeCompare`. -/
def lexLt : List Char → List Char → Bool
  | [], [] => false
  | [], _ :: _ => true
  | _ :: _, [] => false
  | a :: as, b :: bs => if a < b then true else if b < a then false else lexLt as bs

/-- JS string `<` on the underlying characters. -/
def strLt (a b : String) : Bool := lexLt a.data b.data

/-- Rationals that are an integer number of hundredths: the image of
2-decimal rounding, closed under sums and differences. -/
def IsCent (q : ℚ) : Prop := ∃ n : ℤ, q = n / 100

theorem isCent_round2 (q : ℚ) : IsCent (round2 q) := ⟨_, rfl⟩

theorem isCent_zero : IsCent 0 := ⟨0, by norm_num⟩

theorem IsCent.add {a b : ℚ} (ha : IsCent a) (hb : IsCent b) : IsCent (a + b) := by
  obtain ⟨m, rfl⟩ := ha; obtain ⟨n, rfl⟩ := hb
  exact ⟨m + n, by push_cast; ring⟩

theorem IsCent.sub {a b : ℚ} (ha : IsCent a) (hb : IsCent b) : IsCent (a - b) := by
  obtain ⟨m, rfl⟩ := ha; obtain ⟨n, rfl⟩ := hb
  exact ⟨m - n, by push_cast; ring⟩

theorem round2_isCent {q : ℚ} (h : IsCent q) : round2 q = q := by
  obtain ⟨n, rfl⟩ := h
  have h100 : (n : ℚ) / 100 * 100 = (n : ℚ) := by field_simp
  rw [round2, h100]
  have hfl : ⌊(n : ℚ) + 1 / 2⌋ = n :=
    Int.floor_eq_iff.mpr ⟨by norm_num, by norm_num⟩
  rw [hfl]

theorem isCent_sum (l : List ℚ) (h : ∀ q ∈ l, IsCent q) : IsCent l.sum := by
  induction l with
  | nil => simpa using isCent_zero
  | cons a t ih =>
    simp only [List.sum_cons]
    exact (h a (by simp)).add (ih fun q hq => h q (by simp [hq]))

theorem isCent_effectiveReturn (b : Bet) : IsCent ((effectiveReturn b).getD 0) := by
  unfold effectiveReturn defaultReturn
  rcases b.status <;> rcases b.returnOverride <;>
    simp [isSettled, isCent_zero, isCent_round2]

/-- Sum of pointwise differences equals difference of the sums. -/
theorem sum_map_sub {α : Type} (l : List α) (f g : α → ℚ) :
    (l.map fun a => f a - g a).sum = (l.map f).sum - (l.map g).sum := by
  induction l with
  | nil => simp
  | cons a t ih => simp [ih]; ring

/-- The settled subset of a bet list (`bets.filter(b => isSettled(b.status))`). -/
def settledOf (bets : List Bet) : List Bet :=
  bets.filter fun b => isSettled b.status

/-- The headline numbers of the tracker page (`totals`). -/
structure Totals where
  totalStaked : ℚ
  totalReturned : ℚ
  profit : ℚ
  winRate : ℚ

/-- `totals` from the tracker page: total staked over all records, total
returned and profit over settled records, win rate over settled records. -/
def totals (bets : List Bet) : Totals :=
  let settled := settledOf bets
  let totalStaked := round2 (bets.map Bet.stake).sum
  let totalReturned :=
    round2 (settled.map fun b => (effectiveReturn b).getD 0).sum
  let profit := round2 (totalReturned - (settled.map Bet.stake).sum)
  let winRate :=
    if settled.length ≠ 0 then
      ((settled.filter fun b => decide (b.status = BetStatus.Won)).length : ℚ) /
        (settled.length : ℚ)
    else 0
  ⟨totalStaked, totalReturned, profit, winRate⟩

/-- Goal progress (`state.targetProfit > 0 ? clamp01(profit / state.targetProfit) : 0`),
computed from the profit over all settled records, unfiltered. -/
def progress (bets : List Bet) (targetProfit : ℚ) : ℚ :=
  if 0 < targetProfit then clamp01 ((totals bets).profit / targetProfit) else 0

/-- One point of the cumulative-profit series. -/
structure CumPoint where
  date : String
  value : ℚ

/-- The loop body of `cumulative`: running sum of
`effectiveReturn − stake`, emitting the rounded running value per record. -/
def cumPoints (running : ℚ) : List Bet → List CumPoint
  | [] => []
  | b :: rest =>
    let r := running + ((effectiveReturn b).getD 0 - b.stake)
    ⟨b.date, round2 r⟩ :: cumPoints r rest

/-- Settled records sorted ascending by date
(`.sort((a, b) => a.date.localeCompare(b.date))`, a stable sort). -/
def sortedSettled (bets : List Bet) : List Bet :=
  (settledOf bets).mergeSort fun a b => !(strLt b.date a.date)

/-- `cumulative`: the per-record running-sum points, with a synthetic
zero-valued point prepended at the first settled date
(`points.unshift({date: points[0].date, value: 0})`). -/
def cumulative (bets : List Bet) : List CumPoint :=
  match cumPoints 0 (sortedSettled bets) with
  | [] => []
  | p :: pts => ⟨p.date, 0⟩ :: p :: pts

theorem isCent_returned_sum (bets : List Bet) :
    IsCent ((bets.map fun b => (effectiveReturn b).getD 0).sum) := by
  refine isCent_sum _ fun q hq => ?_
  obtain ⟨b, _, rfl⟩ := List.mem_map.mp hq
  exact isCent_effectiveReturn b

/-- The `profit` field of `totals` is the rounded sum of per-record settled
profits. -/
theorem totals_profit_eq (bets : List Bet) :
    (totals bets).profit =
      round2 (((settledOf bets).map
        fun b => (effectiveReturn b).getD 0 - b.stake).sum) := by
  simp only [totals]
  rw [round2_isCent (isCent_returned_sum (settledOf bets)), sum_map_sub]

/-- C5: goal progress is the clamped ratio of total settled profit to the
target when the target is positive, `0` otherwise; it always lies in
`[0, 1]`, and a profit of `150` against a target of `100` yields exactly
`1`, not `3/2`. -/
theorem progress_clamped (bets : List Bet) (t : ℚ) :
    (0 < t → progress bets t = clamp01 ((totals bets).profit / t)) ∧
    (¬ 0 < t → progress bets t = 0) ∧
    0 ≤ progress bets t ∧ progress bets t ≤ 1 ∧
    ((totals bets).profit = 150 → t = 100 → progress bets t = 1) := by
  refine ⟨fun ht => by simp [progress, ht], fun ht => by simp [progress, ht],
    ?_, ?_, fun hp ht => ?_⟩
  · unfold progress
    split
    · exact le_max_left 0 _
    · exact le_refl 0
  · unfold progress
    split
    · exact max_le (by norm_num) (min_le_left 1 _)
    · norm_num
  · subst ht
    rw [progress, if_pos (by norm_num : (0:ℚ) < 100), hp, clamp01]
    norm_num

/-- A won record with stake 50 at odds 4: settled profit 150. -/
def betBigWin : Bet :=
  { betTemplate with stake := 50, oddsDecimal := 4, status := BetStatus.Won }

theorem totals_betBigWin : (totals [betBigWin]).profit = 150 := by
  simp [totals, settledOf, effectiveReturn, defaultReturn, isSettled,
    betBigWin, betTemplate, round2]
  norm_num

/-- Witness for C5: a session whose settled profit is 150 has goal
progress exactly 1 against target 100. -/
theorem progress_clamped_witness :
    (totals [betBigWin]).profit = 150 ∧ progress [betBigWin] 100 = 1 :=
  ⟨totals_betBigWin,
    (progress_clamped [betBigWin] 100).2.2.2.2 totals_betBigWin rfl⟩

theorem cumPoints_length (r : ℚ) (l : List Bet) :
    (cumPoints r l).length = l.length := by
  induction l generalizing r with
  | nil => rfl
  | cons b t ih => simp [cumPoints, ih]

/-- The last point of the running-sum series carries the rounded total of
the accumulated per-record profits. -/
theorem cumPoints_getLast_value (l : List Bet) (hl : l ≠ []) (r : ℚ) :
    ∃ q, (cumPoints r l).getLast? = some q ∧
      q.value = round2 (r + (l.map
        fun b => (effectiveReturn b).getD 0 - b.stake).sum) := by
  induction l generalizing r with
  | nil => exact absurd rfl hl
  | cons b t ih =>
    cases t with
    | nil =>
      refine ⟨_, rfl, ?_⟩
      simp [cumPoints]
    | cons c t' =>
      obtain ⟨q, hq, hval⟩ :=
        ih (by simp) (r + ((effectiveReturn b).getD 0 - b.stake))
      refine ⟨q, ?_, ?_⟩
      · rw [show cumPoints r (b :: c :: t') =
          ⟨b.date, round2 (r + ((effectiveReturn b).getD 0 - b.stake))⟩ ::
            cumPoints (r + ((effectiveReturn b).getD 0 - b.stake)) (c :: t')
          from rfl]
        cases hx : cumPoints (r + ((effectiveReturn b).getD 0 - b.stake)) (c :: t') with
        | nil => simp [cumPoints] at hx
        | cons y ys =>
          rw [hx] at hq
          rw [List.getLast?_cons_cons]
          exact hq
      · rw [hval]
        congr 1
        simp
        ring


/-- C2: when at least one record is settled, the cumulative profit series
starts at a zero-valued point, its last point's value equals the total
settled profit reported by `totals` (total returned minus total staked
over settled records), and it has one point per settled record plus the
synthetic leading zero point. -/
theorem cumulative_zero_to_total (bets : List Bet) (h : settledOf bets ≠ []) :
    ∃ p q, (cumulative bets).head? = some p ∧ p.value = 0 ∧
      (cumulative bets).getLast? = some q ∧ q.value = (totals bets).profit ∧
      (cumulative bets).length = (settledOf bets).length + 1 := by
  have hperm : (sortedSettled bets).Perm (settledOf bets) :=
    List.mergeSort_perm _ _
  have hne : sortedSettled bets ≠ [] := by
    intro hx
    exact h (List.Perm.nil_eq (hx ▸ hperm)).symm
  obtain ⟨q, hq, hval⟩ := cumPoints_getLast_value (sortedSettled bets) hne 0
  cases hx : cumPoints 0 (sortedSettled bets) with
  | nil =>
    rw [hx] at hq
    cases hq
  | cons p0 rest =>
    have hcum : cumulative bets = ⟨p0.date, 0⟩ :: p0 :: rest := by
      unfold cumulative
      rw [hx]
    rw [hx] at hq
    refine ⟨⟨p0.date, 0⟩, q, ?_, rfl, ?_, ?_, ?_⟩
    · rw [hcum]
      rfl
    · rw [hcum, List.getLast?_cons_cons]
      exact hq
    · rw [hval, zero_add, (hperm.map fun b =>
        (effectiveReturn b).getD 0 - b.stake).sum_eq, totals_profit_eq]
    · have hlen : (cumPoints 0 (sortedSettled bets)).length =
          (settledOf bets).length := by
        rw [cumPoints_length, hperm.length_eq]
      rw [hx] at hlen
      simp only [List.length_cons] at hlen
      rw [hcum]
      simp only [List.length_cons]
      omega

/-- Witness for C2: the series of a one-record settled session. -/
theorem cumulative_zero_to_total_witness :
    ∃ p q, (cumulative [betBigWin]).head? = some p ∧ p.value = 0 ∧
      (cumulative [betBigWin]).getLast? = some q ∧
      q.value = (totals [betBigWin]).profit ∧
      (cumulative [betBigWin]).length = (settledOf [betBigWin]).length + 1 :=
  cumulative_zero_to_total [betBigWin]
    (by simp [settledOf, betBigWin, betTemplate, isSettled])

/-- ASCII lower-casing of one character, as `toLowerCase` acts on the
letters occurring in descriptions, sport names and status names. -/
def lowerChar (c : Char) : Char :=
  if 'A' ≤ c ∧ c ≤ 'Z' then Char.ofNat (c.toNat + 32) else c

/-- The string literal of a sport, as interpolated into the search text. -/
def sportName : Sport → String
  | .Football => "Football"
  | .Cricket => "Cricket"
  | .Tennis => "Tennis"
  | .Other => "Other"

/-- The string literal of a status, as interpolated into the search text. -/
def statusName : BetStatus → String
  | .Pending => "Pending"
  | .Won => "Won"
  | .Lost => "Lost"

/-- Does the second list start with the first? -/
def listStarts : List Char → List Char → Bool
  | [], _ => true
  | _ :: _, [] => false
  | c :: cs, d :: ds => decide (c = d) && listStarts cs ds

/-- Contiguous-substring test on character lists (JS `includes`). -/
def listContains (q : List Char) : List Char → Bool
  | [] => listStarts q []
  | d :: ds => listStarts q (d :: ds) || listContains q ds

/-- JS `String.prototype.trim`. -/
def trimStr (s : String) : String :=
  ⟨((s.data.dropWhile Char.isWhitespace).reverse.dropWhile
      Char.isWhitespace).reverse⟩

/-- Truthiness test of `s.trim()`. -/
def trimNonempty (s : String) : Bool := decide (trimStr s ≠ "")

/-- `` `${b.description} ${b.sport} ${b.status}` ``, the haystack of the
free-text search. -/
def searchText (b : Bet) : String :=
  b.description ++ " " ++ sportName b.sport ++ " " ++ statusName b.status

/-- Case-insensitive substring test:
`text.toLowerCase().includes(q.toLowerCase())`. -/
def containsCI (text q : String) : Bool :=
  listContains (q.data.map lowerChar) (text.data.map lowerChar)

/-- The ledger filter criteria.  `none` models the `"All"` sentinel for
sport and status and an unset (`undefined`) date bound; `search` is the
raw search box contents. -/
structure FilterCriteria where
  sport : Option Sport
  status : Option BetStatus
  fromDate : Option String
  toDate : Option String
  search : String

/-- The all-default criteria (`{ sport: "All", status: "All", search: "" }`). -/
def defaultFilter : FilterCriteria :=
  { sport := none, status := none, fromDate := none, toDate := none,
    search := "" }

/-- The filter predicate: one conjunct per early-return of the source. -/
def passes (f : FilterCriteria) (b : Bet) : Bool :=
  (match f.sport with
   | none => true
   | some s => decide (b.sport = s)) &&
  (match f.status with
   | none => true
   | some s => decide (b.status = s)) &&
  (match f.fromDate with
   | none => true
   | some d => !strLt b.date d) &&
  (match f.toDate with
   | none => true
   | some d => !strLt d b.date) &&
  (if trimNonempty f.search then containsCI (searchText b) f.search else true)

/-- `filteredBets`: keep the records passing every criterion, then sort by
date descending for the ledger view. -/
def filteredBets (bets : List Bet) (f : FilterCriteria) : List Bet :=
  (bets.filter (passes f)).mergeSort fun a b => !strLt a.date b.date

/-- Every record passes the all-default criteria. -/
theorem passes_default (b : Bet) : passes defaultFilter b = true := by
  simp [passes, defaultFilter, trimNonempty, trimStr]

/-- C4: a record is in the filter output iff it is in the input and
matches every specified criterion; with the all-default criteria the
output has exactly the members of the input. -/
theorem filteredBets_mem (bets : List Bet) (f : FilterCriteria) (b : Bet) :
    (b ∈ filteredBets bets f ↔ b ∈ bets ∧ passes f b = true) ∧
    (b ∈ filteredBets bets defaultFilter ↔ b ∈ bets) := by
  have key : ∀ g : FilterCriteria,
      b ∈ filteredBets bets g ↔ b ∈ bets ∧ passes g b = true := by
    intro g
    rw [filteredBets, (List.mergeSort_perm (bets.filter (passes g)) _).mem_iff,
      List.mem_filter]
  refine ⟨key f, ?_⟩
  rw [key defaultFilter]
  simp [passes_default b]

/-- Witness for C4: a concrete record is kept by the all-default filter. -/
theorem filteredBets_mem_witness :
    betTemplate ∈ filteredBets [betTemplate] defaultFilter :=
  (filteredBets_mem [betTemplate] defaultFilter betTemplate).2.mpr (by simp)

/-- The session state relevant to deletion: the live record list and the
single last-deleted slot of the soft-undo mechanism. -/
structure TrackerState where
  bets : List Bet
  lastDeleted : Option Bet

/-- `deleteBet`: remember the first record carrying the identifier in the
one-slot undo buffer (`bets.find(b => b.id === id) || null`) and drop
every record with that identifier from the live list. -/
def deleteBet (s : TrackerState) (id : String) : TrackerState :=
  { bets := s.bets.filter fun b => !decide (b.id = id),
    lastDeleted := s.bets.find? fun b => decide (b.id = id) }

/-- `undoDelete`: prepend the remembered record, if any, and clear the slot. -/
def undoDelete (s : TrackerState) : TrackerState :=
  match s.lastDeleted with
  | none => s
  | some b => { bets := b :: s.bets, lastDeleted := none }

/-- With pairwise-distinct identifiers, looking up a member's identifier
finds exactly that member. -/
theorem find_unique_id (l : List Bet) (b : Bet)
    (hnd : l.Pairwise fun x y => x.id ≠ y.id) (hb : b ∈ l) :
    l.find? (fun x => decide (x.id = b.id)) = some b := by
  induction l with
  | nil => cases hb
  | cons a t ih =>
    rcases List.pairwise_cons.mp hnd with ⟨ha, ht⟩
    rcases List.mem_cons.mp hb with rfl | hbt
    · exact List.find?_cons_of_pos _ (by simp)
    · have hne : a.id ≠ b.id := ha b hbt
      rw [List.find?_cons_of_neg _ (by simp [hne])]
      exact ih ht hbt

/-- With pairwise-distinct identifiers, re-prepending a member to the list
filtered on its identifier is a permutation of the original list. -/
theorem cons_filter_perm (l : List Bet) (b : Bet)
    (hnd : l.Pairwise fun x y => x.id ≠ y.id) (hb : b ∈ l) :
    (b :: l.filter fun x => !decide (x.id = b.id)).Perm l := by
  induction l with
  | nil => cases hb
  | cons a t ih =>
    rcases List.pairwise_cons.mp hnd with ⟨ha, ht⟩
    rcases List.mem_cons.mp hb with rfl | hbt
    · have hkeep : (t.filter fun x => !decide (x.id = b.id)) = t := by
        refine List.filter_eq_self.mpr fun x hx => ?_
        simp [Ne.symm (ha x hx)]
      simp [List.filter_cons, hkeep]
    · have hne : a.id ≠ b.id := ha b hbt
      have hstep : ((a :: t).filter fun x => !decide (x.id = b.id)) =
          a :: (t.filter fun x => !decide (x.id = b.id)) := by
        simp [List.filter_cons, hne]
      rw [hstep]
      exact (List.Perm.swap a b _).trans ((ih ht hbt).cons a)

/-- C9: deleting a member record and undoing within the window yields a
list with exactly the original records (a permutation), and the restored
record — now at the head — is field-for-field the deleted one. -/
theorem delete_undo_roundtrip (s : TrackerState) (b : Bet)
    (hnd : s.bets.Pairwise fun x y => x.id ≠ y.id) (hb : b ∈ s.bets) :
    (undoDelete (deleteBet s b.id)).bets.Perm s.bets ∧
    (undoDelete (deleteBet s b.id)).bets.head? = some b ∧
    ∀ x : Bet, x ∈ (undoDelete (deleteBet s b.id)).bets ↔ x ∈ s.bets := by
  have hfind := find_unique_id s.bets b hnd hb
  have hbets : (undoDelete (deleteBet s b.id)).bets =
      b :: s.bets.filter fun x => !decide (x.id = b.id) := by
    simp [undoDelete, deleteBet, hfind]
  have hperm := cons_filter_perm s.bets b hnd hb
  rw [hbets]
  exact ⟨hperm, rfl, fun x => hperm.mem_iff⟩

/-- A second record, distinct in identifier from `betTemplate`. -/
def betSecond : Bet := { betBigWin with id := "b1", date := "2024-01-07" }

/-- Witness for C9: delete-then-undo on a concrete two-record session. -/
theorem delete_undo_roundtrip_witness :
    (undoDelete (deleteBet ⟨[betTemplate, betSecond], none⟩
        betTemplate.id)).bets.Perm [betTemplate, betSecond] ∧
    (undoDelete (deleteBet ⟨[betTemplate, betSecond], none⟩
        betTemplate.id)).bets.head? = some betTemplate ∧
    ∀ x : Bet, x ∈ (undoDelete (deleteBet ⟨[betTemplate, betSecond], none⟩
        betTemplate.id)).bets ↔ x ∈ [betTemplate, betSecond] :=
  delete_undo_roundtrip ⟨[betTemplate, betSecond], none⟩ betTemplate
    (by simp [betTemplate, betSecond, betBigWin]) (by simp)

/-- One row of the odds-band calibration table. -/
structure OddsRow where
  band : String
  bets : ℕ
  wins : ℕ
  avgOdds : ℚ
  implied : ℚ
  winRate : ℚ
  roi : ℚ
  profit : ℚ

/-- The five fixed odds bands as `(label, min, max)`; `none` models the
`Infinity` upper bound of the last band. -/
def oddsBandDefs : List (String × ℚ × Option ℚ) :=
  [("1.01 to 1.49", 101/100, some (149/100)),
   ("1.50 to 1.99", 3/2, some (199/100)),
   ("2.00 to 2.99", 2, some (299/100)),
   ("3.00 to 4.99", 3, some (499/100)),
   ("5.00 or more", 5, none)]

/-- `b.oddsDecimal >= band.min && b.oddsDecimal <= band.max` (every finite
number is `<= Infinity`). -/
def inBand (mn : ℚ) (mx : Option ℚ) (b : Bet) : Bool :=
  decide (mn ≤ b.oddsDecimal) &&
    (match mx with
     | none => true
     | some m => decide (b.oddsDecimal ≤ m))

/-- The all-zero row emitted for a band containing no settled bets. -/
def zeroRow (label : String) : OddsRow := ⟨label, 0, 0, 0, 0, 0, 0, 0⟩

/-- One populated calibration row over the band's settled bets. -/
def bandRow (label : String) (inb : List Bet) : OddsRow :=
  let bets := inb.length
  let wins := (inb.filter fun b => decide (b.status = BetStatus.Won)).length
  let avgOdds := (inb.map Bet.oddsDecimal).sum / (bets : ℚ)
  let implied := 1 / avgOdds
  let winRate := (wins : ℚ) / (bets : ℚ)
  let staked := (inb.map Bet.stake).sum
  let returned := (inb.map fun b => (effectiveReturn b).getD 0).sum
  let profit := round2 (returned - staked)
  let roi := if staked > 0 then profit / staked else 0
  ⟨label, bets, wins, avgOdds, implied, winRate, roi, profit⟩

/-- `oddsBands`: one calibration row per fixed band over the settled
records, all-zero when a band is empty. -/
def oddsBands (bets : List Bet) : List OddsRow :=
  oddsBandDefs.map fun bd =>
    let inb := (settledOf bets).filter (inBand bd.2.1 bd.2.2)
    if inb.length = 0 then zeroRow bd.1 else bandRow bd.1 inb

/-- C6: the calibration output always has exactly 5 rows, in the fixed
band order, and a band containing no settled bets reports all-zero
statistics rather than being omitted. -/
theorem oddsBands_fixed (bets : List Bet) :
    (oddsBands bets).length = 5 ∧
    (oddsBands bets).map OddsRow.band =
      ["1.01 to 1.49", "1.50 to 1.99", "2.00 to 2.99", "3.00 to 4.99",
       "5.00 or more"] ∧
    ∀ r ∈ oddsBands bets, r.bets = 0 →
      r.wins = 0 ∧ r.avgOdds = 0 ∧ r.implied = 0 ∧ r.winRate = 0 ∧
        r.roi = 0 ∧ r.profit = 0 := by
  refine ⟨by simp [oddsBands, oddsBandDefs], ?_, ?_⟩
  · simp only [oddsBands, List.map_map]
    simp [oddsBandDefs, Function.comp, apply_ite OddsRow.band, zeroRow, bandRow]
  · intro r hr hr0
    obtain ⟨bd, hbd, rfl⟩ := List.mem_map.mp hr
    by_cases hc : ((settledOf bets).filter (inBand bd.2.1 bd.2.2)).length = 0
    · simp only [hc, if_pos]
      simp [zeroRow]
    · simp [hc, bandRow] at hr0

/-- Witness for C6: with no records at all, the first band's row is the
all-zero row and the theorem applies to it. -/
theorem oddsBands_fixed_witness :
    (zeroRow "1.01 to 1.49").wins = 0 ∧
    (zeroRow "1.01 to 1.49").avgOdds = 0 ∧
    (zeroRow "1.01 to 1.49").implied = 0 ∧
    (zeroRow "1.01 to 1.49").winRate = 0 ∧
    (zeroRow "1.01 to 1.49").roi = 0 ∧
    (zeroRow "1.01 to 1.49").profit = 0 :=
  (oddsBands_fixed []).2.2 (zeroRow "1.01 to 1.49")
    (by simp [oddsBands, oddsBandDefs, settledOf]) rfl

/-- Odds values falling strictly between two adjacent bands, or below the
first band's lower end. -/
def bandGap (q : ℚ) : Prop :=
  q < 101/100 ∨ (149/100 < q ∧ q < 3/2) ∨ (199/100 < q ∧ q < 2) ∨
    (299/100 < q ∧ q < 3) ∨ (499/100 < q ∧ q < 5)

/-- The `bets` count of every emitted row is the size of the band's
settled subset (also in the all-zero case). -/
theorem oddsBands_bets_counts (bets : List Bet) :
    (oddsBands bets).map OddsRow.bets = oddsBandDefs.map
      fun bd => ((settledOf bets).filter (inBand bd.2.1 bd.2.2)).length := by
  simp only [oddsBands, List.map_map]
  refine List.map_congr_left fun bd _ => ?_
  show (if ((settledOf bets).filter (inBand bd.2.1 bd.2.2)).length = 0 then
      zeroRow bd.1
    else bandRow bd.1 ((settledOf bets).filter (inBand bd.2.1 bd.2.2))).bets =
    ((settledOf bets).filter (inBand bd.2.1 bd.2.2)).length
  by_cases hc : ((settledOf bets).filter (inBand bd.2.1 bd.2.2)).length = 0
  · rw [if_pos hc, hc]
    rfl
  · rw [if_neg hc]
    rfl

/-- C10: a settled record whose odds fall strictly between two adjacent
bands, or below 1.01, is counted in no band, so the five band counts sum
to 0 while the settled count is 1 — the counts undercount the settled
records.  The witness shows such an odds value survives the 3-decimal
rounding applied on entry, i.e. gap values are storable. -/
theorem oddsBands_gap_undercounts (b : Bet) (hs : isSettled b.status = true)
    (hgap : bandGap b.oddsDecimal) :
    ((oddsBands [b]).map OddsRow.bets).sum = 0 ∧
    (settledOf [b]).length = 1 ∧
    ((oddsBands [b]).map OddsRow.bets).sum < (settledOf [b]).length := by
  have hsettled : settledOf [b] = [b] := by simp [settledOf, hs]
  have g1 : inBand (101/100) (some (149/100)) b = false := by
    apply Bool.eq_false_iff.mpr
    intro hx
    simp only [inBand, Bool.and_eq_true, decide_eq_true_eq] at hx
    rcases hgap with h | ⟨h1, h2⟩ | ⟨h1, h2⟩ | ⟨h1, h2⟩ | ⟨h1, h2⟩ <;>
      linarith [hx.1, hx.2]
  have g2 : inBand (3/2) (some (199/100)) b = false := by
    apply Bool.eq_false_iff.mpr
    intro hx
    simp only [inBand, Bool.and_eq_true, decide_eq_true_eq] at hx
    rcases hgap with h | ⟨h1, h2⟩ | ⟨h1, h2⟩ | ⟨h1, h2⟩ | ⟨h1, h2⟩ <;>
      linarith [hx.1, hx.2]
  have g3 : inBand 2 (some (299/100)) b = false := by
    apply Bool.eq_false_iff.mpr
    intro hx
    simp only [inBand, Bool.and_eq_true, decide_eq_true_eq] at hx
    rcases hgap with h | ⟨h1, h2⟩ | ⟨h1, h2⟩ | ⟨h1, h2⟩ | ⟨h1, h2⟩ <;>
      linarith [hx.1, hx.2]
  have g4 : inBand 3 (some (499/100)) b = false := by
    apply Bool.eq_false_iff.mpr
    intro hx
    simp only [inBand, Bool.and_eq_true, decide_eq_true_eq] at hx
    rcases hgap with h | ⟨h1, h2⟩ | ⟨h1, h2⟩ | ⟨h1, h2⟩ | ⟨h1, h2⟩ <;>
      linarith [hx.1, hx.2]
  have g5 : inBand 5 none b = false := by
    apply Bool.eq_false_iff.mpr
    intro hx
    simp only [inBand, Bool.and_eq_true, decide_eq_true_eq, and_true] at hx
    rcases hgap with h | ⟨h1, h2⟩ | ⟨h1, h2⟩ | ⟨h1, h2⟩ | ⟨h1, h2⟩ <;>
      linarith [hx]
  have hsum0 : ((oddsBands [b]).map OddsRow.bets).sum = 0 := by
    rw [oddsBands_bets_counts, hsettled]
    simp [oddsBandDefs, List.filter_cons, g1, g2, g3, g4, g5]
  refine ⟨hsum0, by rw [hsettled]; rfl, ?_⟩
  rw [hsum0, hsettled]
  norm_num

/-- Won record at odds 1.495, a 3-decimal value in the gap between the
first and second bands. -/
def betGap : Bet :=
  { betTemplate with oddsDecimal := 1495/1000, status := BetStatus.Won }

/-- Witness for C10: odds 1.495 survive the 3-decimal entry rounding, and
the bet at those odds is settled yet counted in no band. -/
theorem oddsBands_gap_undercounts_witness :
    round3 betGap.oddsDecimal = betGap.oddsDecimal ∧
    (((oddsBands [betGap]).map OddsRow.bets).sum = 0 ∧
     (settledOf [betGap]).length = 1 ∧
     ((oddsBands [betGap]).map OddsRow.bets).sum <
       (settledOf [betGap]).length) :=
  ⟨by simp only [betGap, betTemplate]; norm_num [round3],
   oddsBands_gap_undercounts betGap rfl
     (by simp only [betGap, betTemplate]; norm_num [bandGap])⟩

/-- The add-form contents.  Numeric fields carry the value `parseNum`
yields from the raw input; `returnOverride` is `none` when the field is
unset or blank. -/
structure AddForm where
  date : String
  description : String
  sport : Sport
  category : Option FootballCategory
  stake : ℚ
  oddsDecimal : ℚ
  status : BetStatus
  returnOverride : Option ℚ

/-- `addDisabled`: an empty trimmed description, a non-positive parsed
stake, or parsed odds not above 1 disable the add button. -/
def addDisabled (f : AddForm) : Bool :=
  decide (trimStr f.description = "") || decide (f.stake ≤ 0) ||
    decide (f.oddsDecimal ≤ 1)

/-- The record `addBet` constructs: stake rounded to 2 decimals, odds to
3, category kept only for football, `settledAt` set iff created settled. -/
def mkBet (f : AddForm) (newId now : String) : Bet :=
  { id := newId, date := f.date, description := trimStr f.description,
    sport := f.sport,
    category := if f.sport = Sport.Football then f.category else none,
    stake := round2 f.stake, oddsDecimal := round3 f.oddsDecimal,
    status := f.status, returnOverride := f.returnOverride.map round2,
    settledAt := if isSettled f.status then some now else none,
    createdAt := now, updatedAt := now }

/-- `addBet`: return unchanged when disabled, otherwise prepend the new
record. -/
def addBet (f : AddForm) (newId now : String) (bets : List Bet) : List Bet :=
  if addDisabled f then bets else mkBet f newId now :: bets

/-- The edit-form contents (`editVals`); numeric fields carry the value
`parseNum` yields from the raw input. -/
structure EditVals where
  stake : ℚ
  oddsDecimal : ℚ
  status : BetStatus
  category : Option FootballCategory
  returnOverride : Option ℚ

/-- `saveEdit`: rewrite the record whose identifier matches, taking the
values from the edit form; `settledAt` becomes the edit timestamp whenever
the old or the new status is settled, and is cleared otherwise.  No
validation is applied to the edited values. -/
def saveEdit (ev : EditVals) (id : String) (now : String)
    (bets : List Bet) : List Bet :=
  bets.map fun b =>
    if b.id = id then
      { b with
        stake := round2 ev.stake,
        oddsDecimal := round3 ev.oddsDecimal,
        status := ev.status,
        category := if b.sport = Sport.Football then ev.category else none,
        returnOverride := ev.returnOverride.map round2,
        settledAt := if isSettled b.status || isSettled ev.status
          then some now else none,
        updatedAt := now }
    else b

/-- An edit form that sets the status back to Pending, other fields as in
`betWonPlain`. -/
def editToPending : EditVals :=
  { stake := 5, oddsDecimal := 2, status := BetStatus.Pending,
    category := none, returnOverride := none }

/-- C7 (the failing input, evaluated): editing a Won record back to
Pending stores a record that is Pending yet carries the edit timestamp in
`settledAt`, because `saveEdit` keeps `settledAt` whenever the old or the
new status is settled.  This contradicts the claim and the source's own
comment that `settledAt` is the timestamp when status was set from
Pending. -/
theorem saveEdit_pending_keeps_settledAt :
    (saveEdit editToPending betWonPlain.id "T2" [betWonPlain]).map
        (fun b => (b.status, b.settledAt)) =
      [(BetStatus.Pending, some "T2")] := by
  simp [saveEdit, editToPending, betWonPlain, betTemplate, isSettled]

/-- An edit form with stake 0 and odds 1 — values `parseNum` happily
produces from the edit inputs. -/
def editZero : EditVals :=
  { stake := 0, oddsDecimal := 1, status := BetStatus.Pending,
    category := none, returnOverride := none }

/-- C8 counterexample: a record satisfying the invariants (stake 5 > 0,
odds 2 > 1) edited through `saveEdit` with stake 0 and odds 1 is stored
with stake 0 and odds 1 — the invariants are not preserved by the edit
operation. -/
theorem saveEdit_breaks_invariants :
    0 < betTemplate.stake ∧ 1 < betTemplate.oddsDecimal ∧
    (saveEdit editZero betTemplate.id "T2" [betTemplate]).map
        (fun b => (b.stake, b.oddsDecimal)) = [(0, 1)] := by
  refine ⟨by norm_num [betTemplate], by norm_num [betTemplate], ?_⟩
  simp [saveEdit, editZero, betTemplate]
  constructor
  · norm_num [round2]
  · norm_num [round3]

/-- C8 amended: `addBet` is guarded — it adds nothing when the trimmed
description is empty, the parsed stake is not positive, or the parsed odds
do not exceed 1; when it does add, the guard guarantees parsed stake > 0
and parsed odds > 1, and the stored values are those parsed values rounded
to 2 and 3 decimal places.  `saveEdit` applies no validation (see the
counterexample), so the invariant is not preserved by edits. -/
theorem addBet_guard (f : AddForm) (newId now : String) (bets : List Bet) :
    (addDisabled f = true → addBet f newId now bets = bets) ∧
    (addDisabled f = false →
      addBet f newId now bets = mkBet f newId now :: bets ∧
      (mkBet f newId now).stake = round2 f.stake ∧
      (mkBet f newId now).oddsDecimal = round3 f.oddsDecimal ∧
      0 < f.stake ∧ 1 < f.oddsDecimal) := by
  constructor
  · intro h
    simp [addBet, h]
  · intro h
    have h' := h
    simp only [addDisabled, Bool.or_eq_false_iff, decide_eq_false_iff_not,
      not_le] at h'
    exact ⟨by simp [addBet, h], rfl, rfl, h'.1.2, h'.2⟩

/-- A form that passes validation. -/
def goodForm : AddForm :=
  { date := "2024-02-01", description := "corners race",
    sport := Sport.Football, category := some FootballCategory.Corners,
    stake := 5, oddsDecimal := 2, status := BetStatus.Pending,
    returnOverride := none }

/-- The same form with the stake zeroed out, rejected by the guard. -/
def badForm : AddForm := { goodForm with stake := 0 }

/-- Witness for the amended C8: the guard rejects the zero-stake form and
accepts the valid one. -/
theorem addBet_guard_witness :
    addBet badForm "b9" "T3" [] = [] ∧
    addBet goodForm "b9" "T3" [] = [mkBet goodForm "b9" "T3"] ∧
    0 < goodForm.stake ∧ 1 < goodForm.oddsDecimal :=
  ⟨(addBet_guard badForm "b9" "T3" []).1 (by decide),
   ((addBet_guard goodForm "b9" "T3" []).2 (by decide)).1,
   ((addBet_guard goodForm "b9" "T3" []).2 (by decide)).2.2.2⟩

/-- One accumulator cell of the grouped breakdowns
(`{ staked, returned, profit, settled, wins }`). -/
structure Stat where
  staked : ℚ
  returned : ℚ
  profit : ℚ
  settled : ℕ
  wins : ℕ

/-- The zero cell inserted on first sight of a key. -/
def Stat.zero : Stat := ⟨0, 0, 0, 0, 0⟩

/-- Fold one settled record into a cell. -/
def Stat.addSettled (b : Bet) (v : Stat) : Stat :=
  { staked := v.staked + b.stake,
    returned := v.returned + (effectiveReturn b).getD 0,
    profit := v.profit + ((effectiveReturn b).getD 0 - b.stake),
    settled := v.settled + 1,
    wins := v.wins + if b.status = BetStatus.Won then 1 else 0 }

/-- Fold one record into a cell; only settled records contribute. -/
def Stat.accum (b : Bet) (v : Stat) : Stat :=
  if isSettled b.status then Stat.addSettled b v else v

/-- Insert-or-update of the map entry for `k`
(`m.get(key) ?? zero` followed by `m.set(key, cur)`), preserving the
first-seen insertion order of the JS `Map`. -/
def upsert {κ : Type} [DecidableEq κ] (k : κ) (g : Stat → Stat) :
    List (κ × Stat) → List (κ × Stat)
  | [] => [(k, g Stat.zero)]
  | e :: m => if k = e.1 then (e.1, g e.2) :: m else e :: upsert k g m

/-- `bySport` accumulators: every record touches its sport's cell, settled
records contribute. -/
def bySportStats (bets : List Bet) : List (Sport × Stat) :=
  bets.foldl (fun m b => upsert b.sport (Stat.accum b) m) []

/-- One row of the sport breakdown. -/
structure SportRow where
  sport : Sport
  staked : ℚ
  returned : ℚ
  profit : ℚ
  winRate : ℚ

/-- `bySport`: rounded rows per sport, sorted descending by profit. -/
def bySport (bets : List Bet) : List SportRow :=
  ((bySportStats bets).map fun e =>
    (⟨e.1, round2 e.2.staked, round2 e.2.returned, round2 e.2.profit,
      if 0 < e.2.settled then (e.2.wins : ℚ) / (e.2.settled : ℚ)
      else 0⟩ : SportRow)).mergeSort
    fun a b => decide (b.profit ≤ a.profit)

/-- `byCategory` accumulators: football records only, keyed by category
(`none` models the `"Uncategorised"` sentinel). -/
def byCategoryStats (bets : List Bet) :
    List (Option FootballCategory × Stat) :=
  (bets.filter fun b => decide (b.sport = Sport.Football)).foldl
    (fun m b => upsert b.category (Stat.accum b) m) []

/-- One row of the football-category breakdown. -/
structure CategoryRow where
  category : Option FootballCategory
  staked : ℚ
  returned : ℚ
  profit : ℚ
  winRate : ℚ

/-- `byCategory`: rounded rows per category over football records, sorted
descending by profit. -/
def byCategory (bets : List Bet) : List CategoryRow :=
  ((byCategoryStats bets).map fun e =>
    (⟨e.1, round2 e.2.staked, round2 e.2.returned, round2 e.2.profit,
      if 0 < e.2.settled then (e.2.wins : ℚ) / (e.2.settled : ℚ)
      else 0⟩ : CategoryRow)).mergeSort
    fun a b => decide (b.profit ≤ a.profit)

/-- The fixed Sunday-first weekday name table. -/
def weekdayNames : List String :=
  ["Sun", "Mon", "Tue", "Wed", "Thu", "Fri", "Sat"]

/-- Split a character list at `'-'` separators (JS `split('-')`). -/
def splitDash : List Char → List (List Char)
  | [] => [[]]
  | c :: cs =>
    if c = '-' then [] :: splitDash cs
    else
      match splitDash cs with
      | [] => [[c]]
      | g :: gs => (c :: g) :: gs

/-- Decimal digits to a natural number (JS `Number` on a digit string). -/
def digitsToNat (cs : List Char) : ℕ :=
  cs.foldl (fun n c => 10 * n + (c.toNat - 48)) 0

/-- Day of week, 0 = Sunday, of a Gregorian date, by Zeller's congruence —
the value of `new Date(y, m - 1, d).getDay()` for a calendar date. -/
def dayIndex (y m d : ℕ) : ℕ :=
  let y' := if m ≤ 2 then y - 1 else y
  let m' := if m ≤ 2 then m + 12 else m
  let K := y' % 100
  let J := y' / 100
  (d + 13 * (m' + 1) / 5 + K + K / 4 + J / 4 + 5 * J + 6) % 7

/-- `dayName`: the Sunday-first weekday name of a `yyyy-mm-dd` date. -/
def dayName (date : String) : String :=
  match splitDash date.data with
  | [ys, ms, ds] =>
    weekdayNames.getD
      (dayIndex (digitsToNat ys) (digitsToNat ms) (digitsToNat ds)) "Sun"
  | _ => "Sun"

/-- `byWeekday` accumulators: settled records only, keyed by weekday name. -/
def byWeekdayStats (bets : List Bet) : List (String × Stat) :=
  bets.foldl
    (fun m b =>
      if isSettled b.status then
        upsert (dayName b.date) (Stat.addSettled b) m
      else m) []

/-- One row of the weekday breakdown. -/
structure WeekdayRow where
  day : String
  staked : ℚ
  returned : ℚ
  profit : ℚ
  winRate : ℚ
  roi : ℚ

/-- Ordered lookup in an association list, mirroring `Map.get`. -/
def lookupStat {κ : Type} [DecidableEq κ] (k : κ) :
    List (κ × Stat) → Option Stat
  | [] => none
  | e :: m => if k = e.1 then some e.2 else lookupStat k m

/-- `byWeekday`: all 7 weekday rows, zero-filled when absent, sorted
descending by profit. -/
def byWeekday (bets : List Bet) : List WeekdayRow :=
  (weekdayNames.map fun day =>
    let v := (lookupStat day (byWeekdayStats bets)).getD Stat.zero
    (⟨day, round2 v.staked, round2 v.returned, round2 v.profit,
      if 0 < v.settled then (v.wins : ℚ) / (v.settled : ℚ) else 0,
      if 0 < v.staked then v.profit / v.staked else 0⟩ :
      WeekdayRow)).mergeSort
    fun a b => decide (b.profit ≤ a.profit)

/-- `median` of the insights page: sort ascending, take the midpoint, or
the mean of the two middle elements for even counts. -/
def median (nums : List ℚ) : ℚ :=
  if nums.length = 0 then 0
  else
    let arr := nums.mergeSort fun a b => decide (a ≤ b)
    let mid := arr.length / 2
    if arr.length % 2 = 1 then arr.getD mid 0
    else (arr.getD (mid - 1) 0 + arr.getD mid 0) / 2

/-- The key metrics of the insights page. -/
structure Metrics where
  totalBets : ℕ
  settled : ℕ
  pending : ℕ
  stakedAll : ℚ
  stakedSettled : ℚ
  returned : ℚ
  profit : ℚ
  hitRate : ℚ
  roi : ℚ
  avgOdds : ℚ
  avgStake : ℚ
  medStake : ℚ
  profitPerBet : ℚ
  pendingStake : ℚ
  pendingPotentialReturn : ℚ

/-- `metrics` over a (possibly pre-filtered) record list. -/
def metrics (bets : List Bet) : Metrics :=
  let settled := settledOf bets
  let pending := bets.filter fun b => decide (b.status = BetStatus.Pending)
  let stakedAll := round2 (bets.map Bet.stake).sum
  let stakedSettled := round2 (settled.map Bet.stake).sum
  let returned := round2 (settled.map fun b => (effectiveReturn b).getD 0).sum
  let profit := round2 (returned - stakedSettled)
  let wins := (settled.filter fun b => decide (b.status = BetStatus.Won)).length
  let hitRate :=
    if settled.length ≠ 0 then (wins : ℚ) / (settled.length : ℚ) else 0
  let roi := if 0 < stakedSettled then profit / stakedSettled else 0
  let avgOdds :=
    if settled.length ≠ 0 then
      round2 ((settled.map Bet.oddsDecimal).sum / (settled.length : ℚ))
    else 0
  let avgStake :=
    if bets.length ≠ 0 then
      round2 ((bets.map Bet.stake).sum / (bets.length : ℚ))
    else 0
  let medStake := round2 (median (bets.map Bet.stake))
  let profitPerBet :=
    if settled.length ≠ 0 then round2 (profit / (settled.length : ℚ)) else 0
  let pendingStake := round2 (pending.map Bet.stake).sum
  let pendingPotentialReturn :=
    round2 (pending.map fun b => b.stake * b.oddsDecimal).sum
  ⟨bets.length, settled.length, pending.length, stakedAll, stakedSettled,
   returned, profit, hitRate, roi, avgOdds, avgStake, medStake, profitPerBet,
   pendingStake, pendingPotentialReturn⟩

/-- Per-record contribution to the grouped profits: the settled profit of
the record, `0` for a pending one. -/
def deltaOf (b : Bet) : ℚ :=
  if isSettled b.status then (effectiveReturn b).getD 0 - b.stake else 0

/-- The total settled profit of a record list, summed per record. -/
def settledProfit (bets : List Bet) : ℚ :=
  ((settledOf bets).map fun b => (effectiveReturn b).getD 0 - b.stake).sum

/-- The profit column of an accumulator list. -/
def sumProfits {κ : Type} (m : List (κ × Stat)) : ℚ :=
  (m.map fun e => e.2.profit).sum

theorem accum_profit (b : Bet) (v : Stat) :
    (Stat.accum b v).profit = v.profit + deltaOf b := by
  unfold Stat.accum Stat.addSettled deltaOf
  by_cases h : isSettled b.status <;> simp [h]

theorem addSettled_profit (b : Bet) (h : isSettled b.status = true) (v : Stat) :
    (Stat.addSettled b v).profit = v.profit + deltaOf b := by
  unfold Stat.addSettled deltaOf
  simp [h]

theorem sumProfits_upsert {κ : Type} [DecidableEq κ] (k : κ)
    (g : Stat → Stat) (d : ℚ) (hg : ∀ v : Stat, (g v).profit = v.profit + d) :
    ∀ m : List (κ × Stat), sumProfits (upsert k g m) = sumProfits m + d := by
  intro m
  induction m with
  | nil => simp [upsert, sumProfits, hg, Stat.zero]
  | cons e m ih =>
    by_cases hk : k = e.1
    · simp only [upsert, if_pos hk, sumProfits, List.map_cons, List.sum_cons,
        hg]
      ring
    · simp only [upsert, if_neg hk, sumProfits, List.map_cons,
        List.sum_cons] at ih ⊢
      rw [ih]
      ring

theorem sumProfits_fold_accum {κ : Type} [DecidableEq κ] (key : Bet → κ) :
    ∀ (bets : List Bet) (m0 : List (κ × Stat)),
      sumProfits (bets.foldl (fun m b => upsert (key b) (Stat.accum b) m) m0) =
        sumProfits m0 + (bets.map deltaOf).sum := by
  intro bets
  induction bets with
  | nil =>
    intro m0
    simp
  | cons b t ih =>
    intro m0
    simp only [List.foldl_cons, List.map_cons, List.sum_cons]
    rw [ih, sumProfits_upsert (key b) _ (deltaOf b) (accum_profit b)]
    ring

theorem sumProfits_fold_weekday :
    ∀ (bets : List Bet) (m0 : List (String × Stat)),
      sumProfits (bets.foldl
        (fun m b => if isSettled b.status then
          upsert (dayName b.date) (Stat.addSettled b) m else m) m0) =
        sumProfits m0 + (bets.map deltaOf).sum := by
  intro bets
  induction bets with
  | nil =>
    intro m0
    simp
  | cons b t ih =>
    intro m0
    simp only [List.foldl_cons, List.map_cons, List.sum_cons]
    by_cases h : isSettled b.status
    · rw [if_pos h, ih,
        sumProfits_upsert (dayName b.date) _ (deltaOf b) (addSettled_profit b h)]
      ring
    · rw [if_neg h, ih]
      have hdelta : deltaOf b = 0 := by simp [deltaOf, h]
      rw [hdelta]
      ring

theorem sum_delta_eq_settledProfit (bets : List Bet) :
    (bets.map deltaOf).sum = settledProfit bets := by
  unfold settledProfit settledOf
  induction bets with
  | nil => simp
  | cons b t ih =>
    by_cases h : isSettled b.status
    · simp [List.filter_cons, h, deltaOf, ih]
    · simp [List.filter_cons, h, deltaOf, ih]

theorem accum_cent (b : Bet) (hb : IsCent b.stake) (v : Stat)
    (hv : IsCent v.profit) : IsCent (Stat.accum b v).profit := by
  unfold Stat.accum Stat.addSettled
  by_cases h : isSettled b.status
  · simp only [if_pos h]
    exact hv.add ((isCent_effectiveReturn b).sub hb)
  · simpa [h] using hv

theorem addSettled_cent (b : Bet) (hb : IsCent b.stake) (v : Stat)
    (hv : IsCent v.profit) : IsCent (Stat.addSettled b v).profit :=
  hv.add ((isCent_effectiveReturn b).sub hb)

theorem upsert_cent {κ : Type} [DecidableEq κ] (k : κ) (g : Stat → Stat)
    (hg : ∀ v, IsCent v.profit → IsCent (g v).profit) :
    ∀ m : List (κ × Stat), (∀ e ∈ m, IsCent (e.2).profit) →
      ∀ e ∈ upsert k g m, IsCent (e.2).profit := by
  intro m
  induction m with
  | nil =>
    intro _ e he
    simp only [upsert, List.mem_singleton] at he
    subst he
    exact hg Stat.zero isCent_zero
  | cons e0 m ih =>
    intro hm e he
    by_cases hk : k = e0.1
    · simp only [upsert, if_pos hk] at he
      rcases List.mem_cons.mp he with rfl | hin
      · exact hg e0.2 (hm e0 (by simp))
      · exact hm e (by simp [hin])
    · simp only [upsert, if_neg hk] at he
      rcases List.mem_cons.mp he with rfl | hin
      · exact hm _ (by simp)
      · exact ih (fun x hx => hm x (by simp [hx])) e hin

theorem fold_accum_cent {κ : Type} [DecidableEq κ] (key : Bet → κ) :
    ∀ (bets : List Bet), (∀ b ∈ bets, IsCent b.stake) →
      ∀ (m0 : List (κ × Stat)), (∀ e ∈ m0, IsCent (e.2).profit) →
      ∀ e ∈ bets.foldl (fun m b => upsert (key b) (Stat.accum b) m) m0,
        IsCent (e.2).profit := by
  intro bets
  induction bets with
  | nil =>
    intro _ m0 hm0 e he
    exact hm0 e he
  | cons b t ih =>
    intro hb m0 hm0 e he
    simp only [List.foldl_cons] at he
    exact ih (fun x hx => hb x (by simp [hx])) _
      (upsert_cent (key b) _ (accum_cent b (hb b (by simp))) m0 hm0) e he

/-- Keys after an upsert: unchanged when the key is present, appended
otherwise. -/
theorem keys_upsert {κ : Type} [DecidableEq κ] (k : κ) (g : Stat → Stat) :
    ∀ m : List (κ × Stat), (upsert k g m).map Prod.fst =
      if k ∈ m.map Prod.fst then m.map Prod.fst
      else m.map Prod.fst ++ [k] := by
  intro m
  induction m with
  | nil => simp [upsert]
  | cons e0 m ih =>
    by_cases hk : k = e0.1
    · simp [upsert, hk]
    · simp only [upsert, if_neg hk, List.map_cons, ih, List.mem_cons]
      by_cases hmem : k ∈ m.map Prod.fst
      · simp [hmem, Ne.symm, hk]
      · simp [hmem, hk]

theorem keys_upsert_nodup {κ : Type} [DecidableEq κ] (k : κ)
    (g : Stat → Stat) (m : List (κ × Stat))
    (h : (m.map Prod.fst).Nodup) : ((upsert k g m).map Prod.fst).Nodup := by
  rw [keys_upsert]
  by_cases hmem : k ∈ m.map Prod.fst
  · simpa [hmem] using h
  · simp [hmem, List.nodup_append, h]

theorem keys_upsert_subset {κ : Type} [DecidableEq κ] (k : κ)
    (g : Stat → Stat) (m : List (κ × Stat)) (names : List κ)
    (hk : k ∈ names) (hsub : ∀ x ∈ m.map Prod.fst, x ∈ names) :
    ∀ x ∈ (upsert k g m).map Prod.fst, x ∈ names := by
  rw [keys_upsert]
  by_cases hmem : k ∈ m.map Prod.fst
  · simpa [hmem] using hsub
  · rw [if_neg hmem]
    intro x hx
    rcases List.mem_append.mp hx with hx' | hx'
    · exact hsub x hx'
    · simp only [List.mem_singleton] at hx'
      subst hx'
      exact hk

theorem getD_weekday_mem (i : ℕ) (h : i < 7) :
    weekdayNames.getD i "Sun" ∈ weekdayNames := by
  interval_cases i <;> simp [weekdayNames]

theorem dayIndex_lt (y m d : ℕ) : dayIndex y m d < 7 := by
  unfold dayIndex
  exact Nat.mod_lt _ (by norm_num)

theorem dayName_mem (s : String) : dayName s ∈ weekdayNames := by
  unfold dayName
  generalize splitDash s.data = l
  match l with
  | [] => simp [weekdayNames]
  | [_] => simp [weekdayNames]
  | [_, _] => simp [weekdayNames]
  | [ys, ms, ds] => exact getD_weekday_mem _ (dayIndex_lt _ _ _)
  | _ :: _ :: _ :: _ :: _ => simp [weekdayNames]

/-- Invariants of the weekday fold: cell profits stay cent-valued, keys
stay duplicate-free, and keys stay weekday names. -/
theorem fold_weekday_inv :
    ∀ (bets : List Bet), (∀ b ∈ bets, IsCent b.stake) →
    ∀ (m0 : List (String × Stat)),
      (∀ e ∈ m0, IsCent (e.2).profit) → (m0.map Prod.fst).Nodup →
      (∀ x ∈ m0.map Prod.fst, x ∈ weekdayNames) →
      ((∀ e ∈ bets.foldl
          (fun m b => if isSettled b.status then
            upsert (dayName b.date) (Stat.addSettled b) m else m) m0,
          IsCent (e.2).profit) ∧
        ((bets.foldl
          (fun m b => if isSettled b.status then
            upsert (dayName b.date) (Stat.addSettled b) m else m) m0).map
            Prod.fst).Nodup ∧
        (∀ x ∈ (bets.foldl
          (fun m b => if isSettled b.status then
            upsert (dayName b.date) (Stat.addSettled b) m else m) m0).map
            Prod.fst, x ∈ weekdayNames)) := by
  intro bets
  induction bets with
  | nil =>
    intro _ m0 h1 h2 h3
    exact ⟨h1, h2, h3⟩
  | cons b t ih =>
    intro hb m0 h1 h2 h3
    simp only [List.foldl_cons]
    by_cases h : isSettled b.status
    · rw [if_pos h]
      exact ih (fun x hx => hb x (by simp [hx])) _
        (upsert_cent _ _ (addSettled_cent b (hb b (by simp))) m0 h1)
        (keys_upsert_nodup _ _ m0 h2)
        (keys_upsert_subset _ _ m0 weekdayNames (dayName_mem b.date) h3)
    · rw [if_neg h]
      exact ih (fun x hx => hb x (by simp [hx])) m0 h1 h2 h3

theorem sum_lookup_profits :
    ∀ (m : List (String × Stat)) (names : List String),
      names.Nodup → (m.map Prod.fst).Nodup →
      (∀ e ∈ m, e.1 ∈ names) →
      (names.map fun k => ((lookupStat k m).getD Stat.zero).profit).sum =
        sumProfits m := by
  intro m
  induction m with
  | nil =>
    intro names _ _ _
    simp [lookupStat, Stat.zero, sumProfits]
  | cons e m ih =>
    intro names hnames hkeys hsub
    have hkmem : e.1 ∈ names := hsub e (by simp)
    have hperm := List.perm_cons_erase hkmem
    rw [(hperm.map
      fun k => ((lookupStat k (e :: m)).getD Stat.zero).profit).sum_eq]
    simp only [List.map_cons, List.sum_cons]
    have hself : lookupStat e.1 (e :: m) = some e.2 := by simp [lookupStat]
    rw [hself]
    simp only [List.map_cons, List.nodup_cons] at hkeys
    have hrest : (names.erase e.1).map
        (fun k => ((lookupStat k (e :: m)).getD Stat.zero).profit) =
        (names.erase e.1).map
        (fun k => ((lookupStat k m).getD Stat.zero).profit) := by
      refine List.map_congr_left fun k hk => ?_
      have hkne : k ≠ e.1 := ((List.Nodup.mem_erase_iff hnames).mp hk).1
      simp [lookupStat, hkne]
    rw [hrest, ih (names.erase e.1) (hnames.erase _) hkeys.2 ?_]
    · simp [sumProfits]
    · intro x hx
      have hx1 : x.1 ∈ names := hsub x (by simp [hx])
      have hxne : x.1 ≠ e.1 := by
        intro hcontra
        exact hkeys.1 (hcontra ▸ List.mem_map_of_mem Prod.fst hx)
      exact (List.Nodup.mem_erase_iff hnames).mpr ⟨hxne, hx1⟩

theorem lookup_getD_cent (m : List (String × Stat))
    (hm : ∀ e ∈ m, IsCent (e.2).profit) (k : String) :
    IsCent ((lookupStat k m).getD Stat.zero).profit := by
  induction m with
  | nil => exact isCent_zero
  | cons e m ih =>
    by_cases hk : k = e.1
    · simp only [lookupStat, if_pos hk, Option.getD_some]
      exact hm e (by simp)
    · simp only [lookupStat, if_neg hk]
      exact ih fun x hx => hm x (by simp [hx])

theorem weekdayNames_nodup : weekdayNames.Nodup := by decide

/-- The `profit` of `metrics` is the exact settled returned-minus-staked
difference whenever all stakes are cent-valued (as stored stakes are). -/
theorem metrics_profit_exact (bets : List Bet)
    (hcent : ∀ b ∈ bets, IsCent b.stake) :
    (metrics bets).profit =
      ((settledOf bets).map fun b => (effectiveReturn b).getD 0).sum -
        ((settledOf bets).map Bet.stake).sum := by
  have hstakes : ∀ q ∈ (settledOf bets).map Bet.stake, IsCent q := by
    intro q hq
    obtain ⟨b, hb, rfl⟩ := List.mem_map.mp hq
    exact hcent b (List.mem_of_mem_filter hb)
  have hr := round2_isCent (isCent_returned_sum (settledOf bets))
  have hs := round2_isCent (isCent_sum _ hstakes)
  simp only [metrics]
  rw [hr, hs,
    round2_isCent ((isCent_returned_sum _).sub (isCent_sum _ hstakes))]

theorem bySport_profit_sum (bets : List Bet)
    (hcent : ∀ b ∈ bets, IsCent b.stake) :
    ((bySport bets).map SportRow.profit).sum = settledProfit bets := by
  unfold bySport
  rw [((List.mergeSort_perm _ _).map SportRow.profit).sum_eq]
  simp only [List.map_map]
  rw [show (SportRow.profit ∘ fun e : Sport × Stat =>
      (⟨e.1, round2 e.2.staked, round2 e.2.returned, round2 e.2.profit,
        if 0 < e.2.settled then (e.2.wins : ℚ) / (e.2.settled : ℚ)
        else 0⟩ : SportRow)) =
    fun e : Sport × Stat => round2 e.2.profit from rfl]
  have hcent' := fold_accum_cent (fun b => b.sport) bets hcent []
    (by simp)
  rw [List.map_congr_left fun e he =>
    round2_isCent (hcent' e (by simpa [bySportStats] using he))]
  rw [show ((bySportStats bets).map fun e => (e.2).profit).sum =
    sumProfits (bySportStats bets) from rfl]
  unfold bySportStats
  rw [sumProfits_fold_accum, sum_delta_eq_settledProfit]
  simp [sumProfits]

theorem byCategory_profit_sum (bets : List Bet)
    (hcent : ∀ b ∈ bets, IsCent b.stake) :
    ((byCategory bets).map CategoryRow.profit).sum =
      settledProfit (bets.filter fun b => decide (b.sport = Sport.Football)) := by
  unfold byCategory
  rw [((List.mergeSort_perm _ _).map CategoryRow.profit).sum_eq]
  simp only [List.map_map]
  rw [show (CategoryRow.profit ∘ fun e : Option FootballCategory × Stat =>
      (⟨e.1, round2 e.2.staked, round2 e.2.returned, round2 e.2.profit,
        if 0 < e.2.settled then (e.2.wins : ℚ) / (e.2.settled : ℚ)
        else 0⟩ : CategoryRow)) =
    fun e : Option FootballCategory × Stat => round2 e.2.profit from rfl]
  have hcentF : ∀ b ∈ bets.filter fun b => decide (b.sport = Sport.Football),
      IsCent b.stake := fun b hb => hcent b (List.mem_of_mem_filter hb)
  have hcent' := fold_accum_cent (fun b => b.category)
    (bets.filter fun b => decide (b.sport = Sport.Football)) hcentF []
    (by simp)
  rw [List.map_congr_left fun e he =>
    round2_isCent (hcent' e (by simpa [byCategoryStats] using he))]
  rw [show ((byCategoryStats bets).map fun e => (e.2).profit).sum =
    sumProfits (byCategoryStats bets) from rfl]
  unfold byCategoryStats
  rw [sumProfits_fold_accum, sum_delta_eq_settledProfit]
  simp [sumProfits]

theorem byWeekday_profit_sum (bets : List Bet)
    (hcent : ∀ b ∈ bets, IsCent b.stake) :
    ((byWeekday bets).map WeekdayRow.profit).sum = settledProfit bets := by
  obtain ⟨hc, hnd, hsubk⟩ := fold_weekday_inv bets hcent []
    (by simp) (by simp) (by simp)
  unfold byWeekday
  rw [((List.mergeSort_perm _ _).map WeekdayRow.profit).sum_eq]
  simp only [List.map_map]
  rw [show (WeekdayRow.profit ∘ fun day : String =>
      let v := (lookupStat day (byWeekdayStats bets)).getD Stat.zero
      (⟨day, round2 v.staked, round2 v.returned, round2 v.profit,
        if 0 < v.settled then (v.wins : ℚ) / (v.settled : ℚ) else 0,
        if 0 < v.staked then v.profit / v.staked else 0⟩ : WeekdayRow)) =
    fun day : String =>
      round2 ((lookupStat day (byWeekdayStats bets)).getD Stat.zero).profit
    from rfl]
  rw [List.map_congr_left fun day _ => round2_isCent
    (lookup_getD_cent (byWeekdayStats bets)
      (fun e he => hc e (by simpa [byWeekdayStats] using he)) day)]
  rw [sum_lookup_profits (byWeekdayStats bets) weekdayNames
    weekdayNames_nodup (by simpa [byWeekdayStats] using hnd)
    (fun e he => hsubk e.1
      (List.mem_map_of_mem Prod.fst (by simpa [byWeekdayStats] using he)))]
  unfold byWeekdayStats
  rw [sumProfits_fold_weekday, sum_delta_eq_settledProfit]
  simp [sumProfits]

/-- C3 (amended): with cent-valued stakes (as all stored stakes are), the
insights `profit` equals the sum of effective returns minus the sum of
stakes over settled records, and the sport and weekday per-group profits
each sum to exactly this ungrouped total; the category groups are
restricted to Football records, so their profits sum to the settled profit
of the Football subset instead. -/
theorem group_profit_sums (bets : List Bet)
    (hcent : ∀ b ∈ bets, IsCent b.stake) :
    (metrics bets).profit =
      ((settledOf bets).map fun b => (effectiveReturn b).getD 0).sum -
        ((settledOf bets).map Bet.stake).sum ∧
    (metrics bets).profit = settledProfit bets ∧
    ((bySport bets).map SportRow.profit).sum = settledProfit bets ∧
    ((byWeekday bets).map WeekdayRow.profit).sum = settledProfit bets ∧
    ((byCategory bets).map CategoryRow.profit).sum =
      settledProfit (bets.filter fun b => decide (b.sport = Sport.Football)) := by
  refine ⟨metrics_profit_exact bets hcent, ?_, bySport_profit_sum bets hcent,
    byWeekday_profit_sum bets hcent, byCategory_profit_sum bets hcent⟩
  rw [metrics_profit_exact bets hcent, settledProfit, sum_map_sub]

/-- Witness for the amended C3, at a one-record settled session. -/
theorem group_profit_sums_witness :
    (metrics [betWonPlain]).profit =
      ((settledOf [betWonPlain]).map fun b => (effectiveReturn b).getD 0).sum -
        ((settledOf [betWonPlain]).map Bet.stake).sum ∧
    (metrics [betWonPlain]).profit = settledProfit [betWonPlain] ∧
    ((bySport [betWonPlain]).map SportRow.profit).sum =
      settledProfit [betWonPlain] ∧
    ((byWeekday [betWonPlain]).map WeekdayRow.profit).sum =
      settledProfit [betWonPlain] ∧
    ((byCategory [betWonPlain]).map CategoryRow.profit).sum =
      settledProfit ([betWonPlain].filter
        fun b => decide (b.sport = Sport.Football)) :=
  group_profit_sums [betWonPlain] (by
    intro b hb
    simp only [List.mem_singleton] at hb
    subst hb
    exact ⟨500, by norm_num [betWonPlain, betTemplate]⟩)

/-- C3 counterexample: a single settled Tennis record has total settled
profit 5, but the category groups (Football-scoped) sum to 0 — grouping by
category does not sum back to the ungrouped total. -/
theorem byCategory_sum_ne_total :
    ((byCategory [betWonPlain]).map CategoryRow.profit).sum = 0 ∧
    (metrics [betWonPlain]).profit = 5 ∧
    ((byCategory [betWonPlain]).map CategoryRow.profit).sum ≠
      (metrics [betWonPlain]).profit := by
  have h0 : byCategoryStats [betWonPlain] = [] := by
    simp [byCategoryStats, betWonPlain, betTemplate]
  have h1 : byCategory [betWonPlain] = [] := by
    unfold byCategory
    rw [h0]
    simp
  have h2 : (metrics [betWonPlain]).profit = 5 := by
    simp [metrics, settledOf, betWonPlain, betTemplate, effectiveReturn,
      defaultReturn, isSettled]
    norm_num [round2]
  refine ⟨by rw [h1]; rfl, h2, ?_⟩
  rw [h1, h2]
  norm_num
